import Mathlib

/-!
Shallow embedding of the wpmm provisioning/introspection core
(src/lib/utils/wordpress.js: the wordpress utils, the fs utils with
downloadFile/extractZip, and the Dump class), together with theorems
settling the frozen claims about it.

Strings are modelled by Lean `String` (a wrapper around `List Char`); most
scanning functions work on the underlying character lists.  JavaScript
`undefined`/`null` values are modelled by `Option`.
-/

namespace Wpmm

/-! ## Generic character-list helpers (JS string primitives) -/

/-- JS `String.prototype.split` with a one-character separator, over char
lists: split at every occurrence of the separator, keeping empty components
(the empty list splits into one empty component, a trailing separator yields
a trailing empty component). -/
def splitCharList (sep : Char) : List Char → List (List Char)
  | [] => [[]]
  | c :: rest =>
    if c = sep then [] :: splitCharList sep rest
    else
      match splitCharList sep rest with
      | [] => [[c]]
      | h :: t => (c :: h) :: t

/-- Boolean prefix test for char lists (the rows are ordered so that a
concrete pattern reduces even when the subject's tail is symbolic, unlike
`List.isPrefixOf`, whose second row inspects both arguments). -/
def isPrefSeq : List Char → List Char → Bool
  | [], _ => true
  | _ :: _, [] => false
  | p :: ps, c :: cs => p == c && isPrefSeq ps cs

/-- JS `String.prototype.indexOf` for a pattern, over char lists: index of
the first occurrence of `pat` in the list, `none` when absent (JS returns
-1 there). -/
def idxOfSeq? (pat : List Char) : List Char → Option Nat
  | [] => if isPrefSeq pat [] then some 0 else none
  | c :: rest =>
    if isPrefSeq pat (c :: rest) then some 0
    else (idxOfSeq? pat rest).map (· + 1)

/-- Whether `pat` occurs contiguously inside `l` (JS `indexOf(...) !== -1`). -/
def containsSeq (pat l : List Char) : Bool :=
  (idxOfSeq? pat l).isSome

/-- JS `Array.prototype.join` with a separator string. -/
def jsJoin (sep : String) : List String → String
  | [] => ""
  | [a] => a
  | a :: b :: rest => a ++ sep ++ jsJoin sep (b :: rest)

/-! ## Archive Extractor (fs utils, `extractZip`) -/

/-- The `i` loop of extractZip's onEntry callback: the first index `i` below
the entry's segment count at which the candidate's segments differ from the
entry's segments.  An out-of-range candidate segment is JS `undefined` and
counts as a mismatch against the entry's (string) segment. -/
def findMismatchAux : List String → List String → Nat → Option Nat
  | _, [], _ => none
  | cs, p :: ps, i =>
    if cs.head? = some p then findMismatchAux cs.tail ps (i + 1)
    else some i

/-- One step of extractZip's onEntry callback: update the running common-root
candidate with the current entry's file name.  `none` models the JS
`undefined` initial value; the `!commonRootPath` test is falsy both for
`undefined` and for the empty string, so both re-seed the candidate with the
entry's top-level segment. -/
def updateCommonRoot (cand : Option String) (fileName : String) : Option String :=
  let entryPathParts := (splitCharList '/' fileName.toList).map List.asString
  match cand with
  | none => some (entryPathParts.headD (""))
  | some c =>
    if c = "" then some (entryPathParts.headD (""))
    else
      let candSegs := (splitCharList '/' c.toList).map List.asString
      match findMismatchAux candSegs entryPathParts 0 with
      | none => some c
      | some i => some (jsJoin ("/") (candSegs.take i))

/-- extractZip's common-root computation: the fold of `updateCommonRoot` over
the archive's entry file names in archive order. -/
def extractZipRoot (entries : List String) : Option String :=
  entries.foldl updateCommonRoot none

/-- The longest shared path-segment prefix of two segment lists, as the
claim's narrowing step words it. -/
def sharedSegs : List String → List String → List String
  | a :: as, b :: bs => if a = b then a :: sharedSegs as bs else []
  | _, _ => []

/-- The narrowing step exactly as the claim states it: the candidate becomes
the longest path-segment prefix (segment-wise) it shares with the entry,
empty when no segment is shared. -/
def specNarrow (cand : String) (fileName : String) : String :=
  jsJoin ("/")
    (sharedSegs ((splitCharList '/' cand.toList).map List.asString)
      ((splitCharList '/' fileName.toList).map List.asString))

/-- The claim's fold: seed with the first entry's top-level segment, then
narrow with every later entry; no entries give no root. -/
def specRoot (entries : List String) : Option String :=
  match entries with
  | [] => none
  | e :: rest =>
    some (rest.foldl specNarrow (((splitCharList '/' e.toList).map List.asString).headD ("")))

/-- The narrowing step with the re-seeding the code actually performs: an
empty candidate is falsy, is treated as unset, and is replaced by the current
entry's top-level segment. -/
def specNarrowReseed (cand : String) (fileName : String) : String :=
  if cand = "" then ((splitCharList '/' fileName.toList).map List.asString).headD ("")
  else specNarrow cand fileName

/-- The claim's fold amended with the re-seeding step. -/
def specRootReseed (entries : List String) : Option String :=
  match entries with
  | [] => none
  | e :: rest =>
    some (rest.foldl specNarrowReseed (((splitCharList '/' e.toList).map List.asString).headD ("")))

/-- The result value of extractZip as seen by its caller: on success the
computed common root (`commonRootPath`, possibly still JS `undefined`), and
on failure the caught error object, returned as a normal value. -/
inductive ZipResult where
  | root (r : Option String)
  | errValue (e : String)
deriving DecidableEq

/-- extractZip with the underlying `extract(zipFilePath, ...)` call abstracted
as its outcome: `Except.ok` carries the entry names streamed to `onEntry` in
archive order, `Except.error` an extraction failure.  The function's own
`Except.error` result would model a rejected promise; the source's catch
block logs the error and `return err`s it, so a failed extraction maps to a
normal `Except.ok (ZipResult.errValue e)` return. -/
def extractZip (outcome : Except String (List String)) : Except String ZipResult :=
  match outcome with
  | Except.ok entries => Except.ok (ZipResult.root (extractZipRoot entries))
  | Except.error err => Except.ok (ZipResult.errValue err)

/-! ## Asset Fetcher (fs utils, `downloadFile`) -/

/-- The parts of the HTTP response downloadFile looks at: `statusCode ?? 0`,
`statusMessage`, the `location` header (absent headers are JS `undefined`,
modelled `none`), and the body that would be streamed to disk. -/
structure HttpResponse where
  statusCode : Nat
  statusMessage : String
  location : Option String
  body : String

/-- JS truthiness of `response.headers.location` (`!!` test): an absent
header and the empty string are falsy. -/
def locationTruthy : Option String → Bool
  | none => false
  | some s => !(s == "")

/-- downloadFile with the network abstracted as a function from URL to
response and the filesystem as an existence predicate.  The result is
`Except.error` for a rejected promise, `Except.ok none` for the
already-exists skip, and `Except.ok (some (targetFile, body))` for a
completed download that wrote `body` to `targetFile` (the only branch that
opens a write stream).  `fuel` bounds the redirect recursion, which the
source leaves unbounded (spec section 5); no chain shorter than `fuel`
is affected by it. -/
def downloadFile (net : String → HttpResponse) (fileExists : String → Bool) :
    Nat → String → String → Except String (Option (String × String))
  | 0, _, _ => Except.error ("too many redirects")
  | fuel + 1, url, targetFile =>
    if fileExists targetFile then Except.ok none
    else
      let response := net url
      let code := response.statusCode
      if 400 ≤ code then Except.error response.statusMessage
      else if 300 < code ∧ code < 400 ∧ locationTruthy response.location then
        downloadFile net fileExists fuel (response.location.getD ("")) targetFile
      else Except.ok (some (targetFile, response.body))

/-! ## PHP Declaration Parser (`uncommentedLines`, `parseWpConfig`) -/

/-- One iteration of uncommentedLines' loop over the lines: given the
carried block-comment state and the current line, produce the updated state
and the processed line.  Mirrors the source: an open block comment looks for
a closing marker (dropping through it) or blanks the line; outside a block
comment, a block comment opened and closed on the line is cut out in place,
an unclosed opener truncates the line and sets the state, and afterwards a
line-comment marker truncates whatever is left. -/
def processLine (inBlockComment : Bool) (line : List Char) : Bool × List Char :=
  let p1 : Bool × List Char :=
    if inBlockComment then
      match idxOfSeq? ['*', '/'] line with
      | some e => (false, line.drop (e + 2))
      | none => (true, [])
    else (false, line)
  if p1.1 then p1
  else
    let newLine := p1.2
    let startCommentIndex := idxOfSeq? ['/', '*'] newLine
    let endCommentIndex := idxOfSeq? ['*', '/'] newLine
    let p2 : Bool × List Char :=
      match startCommentIndex, endCommentIndex with
      | some si, some ei => (false, newLine.take si ++ newLine.drop (ei + 2))
      | some si, none => (true, newLine.take si)
      | none, _ => (false, newLine)
    let newLine2 :=
      match idxOfSeq? ['/', '/'] p2.2 with
      | some li => p2.2.take li
      | none => p2.2
    (p2.1, newLine2)

/-- The accumulation loop of uncommentedLines: every processed line is
emitted followed by a newline (`uncommented += newLine + '\n'`). -/
def uncommentedGo (inBlockComment : Bool) : List (List Char) → List Char
  | [] => []
  | line :: rest =>
    let r := processLine inBlockComment line
    r.2 ++ '\n' :: uncommentedGo r.1 rest

/-- uncommentedLines: split the content on newlines, strip comments line by
line carrying the block-comment state, and re-join with a newline appended
after every line (including the last). -/
def uncommentedLines (content : String) : String :=
  (uncommentedGo false (splitCharList '\n' content.toList)).asString

/-- The text contains none of the three comment markers uncommentedLines
reacts to. -/
def noMarkers (s : String) : Prop :=
  idxOfSeq? ['/', '*'] s.toList = none ∧ idxOfSeq? ['*', '/'] s.toList = none ∧
    idxOfSeq? ['/', '/'] s.toList = none

/-- The character class of the JS `\s` escape (whitespace), by code point. -/
def jsWhitespace (c : Char) : Bool :=
  let n := c.toNat
  n == 0x20 || n == 0x09 || n == 0x0a || n == 0x0d || n == 0x0b || n == 0x0c ||
    n == 0xa0 || n == 0x1680 || (0x2000 ≤ n && n ≤ 0x200a) || n == 0x2028 ||
    n == 0x2029 || n == 0x202f || n == 0x205f || n == 0x3000 || n == 0xfeff

/-- Match a literal pattern at the head of the input and return what follows
it, or fail. -/
def expectPrefix (pat l : List Char) : Option (List Char) :=
  if isPrefSeq pat l then some (l.drop pat.length) else none

/-- Case-insensitive (JS `i` flag) variant of `expectPrefix`. -/
def expectPrefixCI : List Char → List Char → Option (List Char)
  | [], l => some l
  | _ :: _, [] => none
  | p :: ps, c :: cs => if p.toLower == c.toLower then expectPrefixCI ps cs else none

/-- Matcher for parseWpConfig's define regex
`define\(\s*'([^']*)'\s*,\s*'([^']*)'\s*\);` (flags `gi`) at the current
position: returns the captured (name, value) pair and the input after the
match.  Each `\s*` is followed by a non-whitespace literal and each `[^']*`
by a quote, so the greedy scan needs no backtracking. -/
def matchDefineCapture (l : List Char) : Option ((List Char × List Char) × List Char) := do
  let l1 ← expectPrefixCI (("define(").toList) l
  let l2 := l1.dropWhile jsWhitespace
  let l3 ← expectPrefix (['\'']) l2
  let name := l3.takeWhile (fun c => !(c == '\''))
  let l4 := l3.dropWhile (fun c => !(c == '\''))
  let l5 ← expectPrefix (['\'']) l4
  let l6 := l5.dropWhile jsWhitespace
  let l7 ← expectPrefix ([',']) l6
  let l8 := l7.dropWhile jsWhitespace
  let l9 ← expectPrefix (['\'']) l8
  let value := l9.takeWhile (fun c => !(c == '\''))
  let l10 := l9.dropWhile (fun c => !(c == '\''))
  let l11 ← expectPrefix (['\'']) l10
  let l12 := l11.dropWhile jsWhitespace
  expectPrefix ([')', ';']) l12 >>= fun rest => pure ((name, value), rest)

/-- The global (`g` flag) scan for define matches: try each position from
left to right, and continue after a match (matches do not overlap).  The
fuel starts at the input length; every step consumes at least one character
(a match consumes at least the `define(` literal), so the fuel never runs
out before the input does. -/
def scanDefinesAux : Nat → List Char → List (List Char × List Char)
  | 0, _ => []
  | _ + 1, [] => []
  | fuel + 1, c :: rest =>
    match matchDefineCapture (c :: rest) with
    | some (nv, after) => nv :: scanDefinesAux fuel after
    | none => scanDefinesAux fuel rest

/-- All (name, value) captures of the define regex over the text, in textual
order. -/
def scanDefines (l : List Char) : List (List Char × List Char) :=
  scanDefinesAux l.length l

/-- First character class of the variable regex's identifier,
`[a-zA-Z_\x7f-\xff]` (the upper range is the JS code-unit range). -/
def identStartChar (c : Char) : Bool :=
  let n := c.toNat
  (0x61 ≤ n && n ≤ 0x7a) || (0x41 ≤ n && n ≤ 0x5a) || n == 0x5f ||
    (0x7f ≤ n && n ≤ 0xff)

/-- Continuation character class `[a-zA-Z0-9_\x7f-\xff]`. -/
def identChar (c : Char) : Bool :=
  identStartChar c || (0x30 ≤ c.toNat && c.toNat ≤ 0x39)

/-- The variable regex's terminator alternation `(?:;|\?>|\s+\?>|$)`, tried
in JS order: a semicolon, a closing tag, whitespace then a closing tag, or
the end of the input.  Returns the input after the terminator. -/
def matchTerm (l : List Char) : Option (List Char) :=
  match l with
  | ';' :: r => some r
  | '?' :: '>' :: r => some r
  | [] => some []
  | l' =>
    if l'.head?.elim false jsWhitespace then
      match l'.dropWhile jsWhitespace with
      | '?' :: '>' :: r => some r
      | _ => none
    else none

/-- The optional closing quote `["']?` (greedy: first with the quote
consumed, then without) followed by the terminator. -/
def matchClose (l : List Char) : Option (List Char) :=
  match l with
  | c :: r =>
    if c = '"' ∨ c = '\'' then
      match matchTerm r with
      | some x => some x
      | none => matchTerm (c :: r)
    else matchTerm (c :: r)
  | [] => matchTerm []

/-- The lazy value group `(.*?[^"'])` followed by `matchClose`: try the
shortest expansion of `.*?` first (`acc` holds its characters in reverse),
with the next character as the group's final `[^"']` character; on failure
extend `.*?` by that character (`.` does not match a newline).  Returns the
captured group and the input after the terminator. -/
def matchValue : List Char → List Char → Option (List Char × List Char)
  | _, [] => none
  | acc, c :: r =>
    let firstTry : Option (List Char × List Char) :=
      if c = '"' ∨ c = '\'' then none
      else
        match matchClose r with
        | some rest => some (acc.reverse ++ [c], rest)
        | none => none
    match firstTry with
    | some res => some res
    | none => if c = '\n' then none else matchValue (c :: acc) r

/-- Matcher for parseWpConfig's variable regex
`\$([a-zA-Z_\x7f-\xff][a-zA-Z0-9_\x7f-\xff]*)\s*=\s*["']?(.*?[^"'])["']?(?:;|\?>|\s+\?>|$)`
at the current position: the dollar sign, the captured identifier, `=`
between whitespace, then the optional opening quote (greedy: tried consumed
first, then not) and the value group.  Returns the captured
(identifier, value) pair and the input after the match. -/
def matchVarAt : List Char → Option ((List Char × List Char) × List Char)
  | '$' :: c :: r =>
    if identStartChar c then
      let name := c :: r.takeWhile identChar
      let afterIdent := r.dropWhile identChar
      match afterIdent.dropWhile jsWhitespace with
      | '=' :: l2 =>
        let l3 := l2.dropWhile jsWhitespace
        let withQuote : Option ((List Char × List Char) × List Char) :=
          match l3 with
          | q :: l4 =>
            if q = '"' ∨ q = '\'' then
              match matchValue [] l4 with
              | some (v, rest) => some ((name, v), rest)
              | none => none
            else none
          | [] => none
        match withQuote with
        | some res => some res
        | none =>
          match matchValue [] l3 with
          | some (v, rest) => some ((name, v), rest)
          | none => none
      | _ => none
    else none
  | _ => none

/-- The global scan for variable matches, like `scanDefinesAux` (every match
consumes at least the dollar sign and one identifier character, so the fuel
never runs out before the input does). -/
def scanVarsAux : Nat → List Char → List (List Char × List Char)
  | 0, _ => []
  | _ + 1, [] => []
  | fuel + 1, c :: rest =>
    match matchVarAt (c :: rest) with
    | some (nv, after) => nv :: scanVarsAux fuel after
    | none => scanVarsAux fuel rest

/-- All (identifier, value) captures of the variable regex over the text, in
textual order. -/
def scanVars (l : List Char) : List (List Char × List Char) :=
  scanVarsAux l.length l

/-- One step of the `forEach` that fills a JS object from the match list:
`obj[key] = value` overwrites any earlier binding of the key. -/
def overwriteInsert (m : List Char → Option (List Char)) (kv : List Char × List Char) :
    List Char → Option (List Char) :=
  fun k => if k = kv.1 then some kv.2 else m k

/-- The mapping built from a match list by successive overwriting inserts,
starting from the empty object. -/
def buildMapFun (ms : List (List Char × List Char)) : List Char → Option (List Char) :=
  ms.foldl overwriteInsert (fun _ => none)

/-- The value of the last (textually latest) match for a key in a match
list, the specification side of the last-one-wins property. -/
def lastValue (k : List Char) : List (List Char × List Char) → Option (List Char)
  | [] => none
  | kv :: ms =>
    match lastValue k ms with
    | some v => some v
    | none => if k = kv.1 then some kv.2 else none

/-- The result of parseWpConfig; the source's `variables` field is named
`vars` here because `variables` is a reserved word in Lean. -/
structure ParsedConfig where
  constants : List Char → Option (List Char)
  vars : List Char → Option (List Char)

/-- parseWpConfig with the file read abstracted: comments are stripped from
the content, both regexes are scanned globally over the stripped text, and
each match list is folded into a mapping by overwriting inserts (the
source's try/catch around the file read is outside this model). -/
def parseWpConfig (fileContent : String) : ParsedConfig :=
  let wpConfigContent := (uncommentedLines fileContent).toList
  { constants := buildMapFun (scanDefines wpConfigContent)
    vars := buildMapFun (scanVars wpConfigContent) }

/-! ## Config Templater (`replaceDbConstant`, `generateSalt`) -/

/-- Matcher for replaceDbConstant's regex
`define\(\s*'NAME'\s*,\s*'[^']*'\s*\);` (no flags: case-sensitive, first
match only) at the current position, returning the input after the match. -/
def matchDefineAfter (name : List Char) (l : List Char) : Option (List Char) := do
  let l1 ← expectPrefix (("define(").toList) l
  let l2 := l1.dropWhile jsWhitespace
  let l3 ← expectPrefix ('\'' :: name ++ ['\'']) l2
  let l4 := l3.dropWhile jsWhitespace
  let l5 ← expectPrefix ([',']) l4
  let l6 := l5.dropWhile jsWhitespace
  let l7 ← expectPrefix (['\'']) l6
  let l8 := l7.dropWhile (fun c => !(c == '\''))
  let l9 ← expectPrefix (['\'']) l8
  let l10 := l9.dropWhile jsWhitespace
  expectPrefix ([')', ';']) l10

/-- The replacement text `define( 'NAME', 'VALUE' );` in canonical
spacing. -/
def canonicalDefine (name value : List Char) : List Char :=
  ("define( '").toList ++ name ++ ("', '").toList ++ value ++ ("' );").toList

/-- `String.prototype.replace` with the non-global define regex: scan left
to right for the first match, splice in the canonical replacement, and keep
the rest of the input untouched (no further matches are replaced); without a
match the input is returned unchanged. -/
def rdcGo (name value : List Char) : List Char → List Char
  | [] => []
  | c :: rest =>
    match matchDefineAfter name (c :: rest) with
    | some r => canonicalDefine name value ++ r
    | none => c :: rdcGo name value rest

/-- replaceDbConstant over the configuration content. -/
def replaceDbConstant (configContent constantName userDefinedValue : String) : String :=
  (rdcGo constantName.toList userDefinedValue.toList configContent.toList).asString

/-- generateSalt's character set, verbatim from the source. -/
def charset : String :=
  "abcdefghijklmnopqrstuvwxyzABCDEFGHIJKLMNOPQRSTUVWXYZ0123456789!@#$%^&*()-_=+[]\x7b\x7d|;:,.<>?/"

/-- generateSalt's length constant. -/
def saltLength : Nat := 64

/-- generateSalt with the randomness abstracted: `rand i` is the value of
`Math.floor(Math.random() * charset.length)` at the i-th draw (always below
`charset.length`, since `Math.random()` is below 1; theorems carry that as a
hypothesis).  Each draw indexes into the charset and the characters are
joined. -/
def generateSalt (rand : Nat → Nat) : String :=
  ((List.range saltLength).map (fun i => charset.toList.getD (rand i) ' ')).asString

/-! ## Installation Scanner (`Dump.scanDirectory`) -/

/-- What scanDirectory observes about one child of the scanned directory:
its name, whether it is a directory, whether `style.css` exists in it and
what `extractVersionFromStyleFile` returns for it, and likewise for the
`<name>.php` theme file and the relative `<name>.php` plugin file with
`extractVersionFromPHPFile`. -/
structure ScanItem where
  name : String
  isDirectory : Bool
  hasStyleCss : Bool
  styleCssVersion : Option String
  hasThemeFile : Bool
  hasPluginFile : Bool
  themeFileVersion : Option String
  pluginFileVersion : Option String

/-- One iteration of scanDirectory's loop: a non-directory contributes
nothing; a directory first pushes a (name, version) item if `style.css`
exists and yields a version, and then independently pushes another item if a
theme or plugin PHP file exists and `themeFileVersion || pluginFileVersion`
yields a version. -/
def scanDirectoryStep (item : ScanItem) : List (String × String) :=
  if item.isDirectory then
    (if item.hasStyleCss then
      match item.styleCssVersion with
      | some v => [(item.name, v)]
      | none => []
    else []) ++
    (if item.hasThemeFile || item.hasPluginFile then
      match item.themeFileVersion.orElse (fun _ => item.pluginFileVersion) with
      | some v => [(item.name, v)]
      | none => []
    else [])
  else []

/-- Dump.scanDirectory over the observed children, accumulating pushes in
order. -/
def scanDirectory (items : List ScanItem) : List (String × String) :=
  items.foldl (fun result item => result ++ scanDirectoryStep item) []

/-! ## Path Resolver (`getWordPressPaths`) -/

/-- `path.join` for the two-argument uses in getWordPressPaths (simple
separator insertion; none of the claims involve normalization). -/
def pathJoin (a b : String) : String := a ++ ("/") ++ b

/-- Modelled from the spec: `pkgFileName` comes from src/lib/constants.js,
which is not part of src/; the spec calls the configuration marker file
wp-package.json. -/
def pkgFileName : String := "wp-package.json"

/-- Modelled from the spec: `defaultWpInstallFolder` also comes from
src/lib/constants.js; the spec only says config.name falls back to a
default install name, whose exact value no claim depends on. -/
def defaultWpInstallFolder : String := "wordpress"

/-- The paths object getWordPressPaths returns. -/
structure WPMMpaths where
  tempDir : String
  baseFolder : String
  pluginsFolder : String
  themeFolder : String

/-- getWordPressPaths with the filesystem abstracted as an existence
predicate and `config.name` as an optional string (`config.name ??
defaultWpInstallFolder`). -/
def getWordPressPaths (fsExists : String → Bool) (configName : Option String)
    (rootFolder : String) : WPMMpaths :=
  let baseFolder :=
    if !(fsExists (pathJoin rootFolder ("wp-config.php"))) &&
        !(fsExists (pathJoin rootFolder pkgFileName)) then
      pathJoin rootFolder (configName.getD defaultWpInstallFolder)
    else rootFolder
  { tempDir := pathJoin rootFolder ("temp")
    baseFolder := baseFolder
    pluginsFolder := pathJoin (pathJoin baseFolder ("wp-content")) ("plugins")
    themeFolder := pathJoin (pathJoin baseFolder ("wp-content")) ("themes") }

/-! ## Concrete fixtures used by counterexamples and witnesses -/

/-- A network where every URL answers 300 Multiple Choices with a Location
header. -/
def netMultipleChoices : String → HttpResponse :=
  fun _ => ⟨300, "Multiple Choices", some ("http://b.example/w.zip"), "BODY300"⟩

/-- A network where one URL answers 301 with a Location header pointing at a
URL that answers 200. -/
def netMovedOnce : String → HttpResponse :=
  fun url =>
    if url == "http://a.example/w.zip" then
      ⟨301, "Moved Permanently", some ("http://b.example/w.zip"), ""⟩
    else ⟨200, "OK", none, "ZIPDATA"⟩

/-- A network where every URL answers 404. -/
def netNotFound : String → HttpResponse :=
  fun _ => ⟨404, "Not Found", none, ""⟩

/-- A filesystem on which no target file exists yet. -/
def noFileExists : String → Bool := fun _ => false

/-! ## Generic lemmas about the helpers -/

theorem asString_toList (s : String) : s.toList.asString = s := rfl

theorem toList_asString (l : List Char) : (List.asString l).toList = l := rfl

theorem splitCharList_ne_nil (sep : Char) (l : List Char) : splitCharList sep l ≠ [] := by
  cases l with
  | nil => simp [splitCharList]
  | cons c rest =>
    simp only [splitCharList]
    split
    · simp
    · split <;> simp

theorem splitCharList_no_sep (sep : Char) (l : List Char) (h : sep ∉ l) :
    splitCharList sep l = [l] := by
  induction l with
  | nil => rfl
  | cons c rest ih =>
    have h1 : ¬ c = sep := fun hc => h (hc ▸ List.mem_cons_self c rest)
    have h2 : sep ∉ rest := fun hm => h (List.mem_cons_of_mem c hm)
    simp [splitCharList, h1, ih h2]

theorem splitCharList_not_mem (sep : Char) (l : List Char) :
    ∀ x ∈ splitCharList sep l, sep ∉ x := by
  induction l with
  | nil =>
    intro x hx
    simp [splitCharList] at hx
    simp [hx]
  | cons c rest ih =>
    intro x hx
    by_cases hc : c = sep
    · simp only [splitCharList, if_pos hc, List.mem_cons] at hx
      rcases hx with hx | hx
      · simp [hx]
      · exact ih x hx
    · obtain ⟨h, t, ht⟩ := List.exists_cons_of_ne_nil (splitCharList_ne_nil sep rest)
      simp only [splitCharList, if_neg hc, ht, List.mem_cons] at hx
      rcases hx with hx | hx
      · subst hx
        intro hm
        rcases List.mem_cons.mp hm with hm | hm
        · exact hc hm.symm
        · exact ih h (by rw [ht]; exact List.mem_cons_self h t) hm
      · exact ih x (by rw [ht]; exact List.mem_cons_of_mem h hx)

theorem splitCharList_head_app (sep : Char) (l h : List Char) (t : List (List Char))
    (e : splitCharList sep l = h :: t) : ∃ l₂, h ++ l₂ = l := by
  induction l generalizing h t with
  | nil =>
    simp [splitCharList] at e
    exact ⟨[], by simp [← e.1]⟩
  | cons c rest ih =>
    by_cases hc : c = sep
    · simp only [splitCharList, if_pos hc] at e
      have : h = [] := (List.cons.injEq _ _ _ _).mp e.symm |>.1
      exact ⟨c :: rest, by simp [this]⟩
    · obtain ⟨h', t', ht⟩ := List.exists_cons_of_ne_nil (splitCharList_ne_nil sep rest)
      simp only [splitCharList, if_neg hc, ht] at e
      have e1 : h = c :: h' := ((List.cons.injEq _ _ _ _).mp e.symm).1
      obtain ⟨l₂, hl⟩ := ih h' t' ht
      exact ⟨l₂, by rw [e1]; simpa using hl⟩

/-! ## Claim C1: extractZip's common root -/

theorem findMismatchAux_singleton (c p : String) (ps : List String) :
    findMismatchAux [c] (p :: ps) 0 =
      if c = p then (match ps with | [] => none | _ :: _ => some 1) else some 0 := by
  by_cases h : c = p
  · subst h
    simp only [findMismatchAux, List.head?, if_pos rfl, if_pos]
    cases ps with
    | nil => rfl
    | cons q qs => simp [findMismatchAux]
  · simp only [findMismatchAux, List.head?]
    rw [if_neg (by simpa using h), if_neg h]

theorem headSeg_no_slash (f : String) :
    '/' ∉ (((splitCharList '/' f.toList).map List.asString).headD ("")).toList := by
  obtain ⟨p, ps, hp⟩ := List.exists_cons_of_ne_nil (splitCharList_ne_nil '/' f.toList)
  rw [hp]
  simp only [List.map_cons, List.headD_cons]
  rw [toList_asString]
  exact splitCharList_not_mem '/' f.toList p (by rw [hp]; exact List.mem_cons_self p ps)

theorem updateCommonRoot_nonempty (c f : String) (hns : '/' ∉ c.toList) (hc : ¬ c = "") :
    updateCommonRoot (some c) f = some (specNarrow c f) ∧
      (specNarrow c f = c ∨ specNarrow c f = "") := by
  have hsplit : splitCharList '/' c.toList = [c.toList] := splitCharList_no_sep _ _ hns
  obtain ⟨p, ps, hp⟩ := List.exists_cons_of_ne_nil (splitCharList_ne_nil '/' f.toList)
  simp only [updateCommonRoot, specNarrow]
  rw [if_neg hc, hp, hsplit]
  simp only [List.map_cons, List.map_nil, asString_toList]
  rw [findMismatchAux_singleton]
  by_cases hcp : c = List.asString p
  · rw [if_pos hcp]
    cases ps with
    | nil =>
      simp only [List.map_nil, sharedSegs, if_pos hcp]
      exact ⟨rfl, Or.inl rfl⟩
    | cons q qs =>
      simp only [List.map_cons, sharedSegs, if_pos hcp]
      exact ⟨rfl, Or.inl rfl⟩
  · rw [if_neg hcp]
    simp only [sharedSegs, if_neg hcp]
    exact ⟨rfl, Or.inr rfl⟩

theorem updateCommonRoot_eq_reseed (c f : String) (hns : '/' ∉ c.toList) :
    updateCommonRoot (some c) f = some (specNarrowReseed c f) := by
  by_cases hc : c = ""
  · subst hc
    rfl
  · unfold specNarrowReseed
    rw [if_neg hc]
    exact (updateCommonRoot_nonempty c f hns hc).1

theorem specNarrowReseed_no_slash (c f : String) (hns : '/' ∉ c.toList) :
    '/' ∉ (specNarrowReseed c f).toList := by
  by_cases hc : c = ""
  · unfold specNarrowReseed
    rw [if_pos hc]
    exact headSeg_no_slash f
  · unfold specNarrowReseed
    rw [if_neg hc]
    rcases (updateCommonRoot_nonempty c f hns hc).2 with h | h
    · rw [h]; exact hns
    · rw [h]; decide

theorem foldl_updateCommonRoot (entries : List String) :
    ∀ c : String, '/' ∉ c.toList →
      entries.foldl updateCommonRoot (some c) = some (entries.foldl specNarrowReseed c) := by
  induction entries with
  | nil => intro c _; rfl
  | cons e rest ih =>
    intro c hc
    simp only [List.foldl_cons]
    rw [updateCommonRoot_eq_reseed c e hc]
    exact ih _ (specNarrowReseed_no_slash c e hc)

/-- Claim C1 counterexample: on the entries `["a/x", "b/y", "b/z"]` the code
returns `"b"` while the claim's fold (candidate truncated to empty and then
only narrowed) returns `""`: after the second entry empties the candidate,
the code's falsy test re-seeds it from the third entry, so the result is
neither a root shared by every entry nor empty/undefined. -/
theorem extractZipRoot_counter :
    extractZipRoot [("a/x"), ("b/y"), ("b/z")] = some ("b") ∧
      specRoot [("a/x"), ("b/y"), ("b/z")] = some ("") := by decide

/-- Claim C1 (amended): extractZip's common root is the fold the claim
describes amended in one point — an empty candidate is falsy and is re-seeded
with the next entry's top-level segment instead of staying empty.  The fold
seeds the candidate with the first entry's top-level segment and narrows it
for each later entry to the longest shared path-segment prefix (empty when no
segment is shared); the claim's concrete example still computes
`"pkg-1.0"`. -/
theorem extractZipRoot_spec :
    (∀ entries : List String, extractZipRoot entries = specRootReseed entries) ∧
      extractZipRoot [("pkg-1.0/a.txt"), ("pkg-1.0/sub/b.txt")] = some ("pkg-1.0") := by
  constructor
  · intro entries
    cases entries with
    | nil => rfl
    | cons e rest =>
      unfold extractZipRoot specRootReseed
      simp only [List.foldl_cons]
      have h0 : updateCommonRoot none e =
          some (((splitCharList '/' e.toList).map List.asString).headD ("")) := rfl
      rw [h0]
      exact foldl_updateCommonRoot rest _ (headSeg_no_slash e)
  · decide

/-! ## Claim C2: generateSalt's length and alphabet -/

theorem length_asString (l : List Char) : (List.asString l).length = l.length := rfl

/-- Claim C2 counterexample: the fixed alphabet generateSalt draws from (the
source's `charset`) consists of 89 distinct characters, not 94 — the five
printable ASCII characters it omits are the double quote, the single quote,
the backtick, the tilde and the backslash. -/
theorem charset_counts : charset.toList.Nodup ∧ charset.toList.length = 89 ∧
    ¬ charset.toList.length = 94 := by decide

/-- Claim C2 (amended): for every random source whose draws are in range
(`Math.floor(Math.random() * charset.length)` always is), generateSalt
returns a string of length exactly 64 each of whose characters belongs to
the fixed 89-character charset of upper-case letters, lower-case letters,
digits and a fixed set of punctuation symbols. -/
theorem generateSalt_spec (rand : Nat → Nat) (h : ∀ i, rand i < charset.toList.length) :
    (generateSalt rand).length = 64 ∧
      ∀ c ∈ (generateSalt rand).toList, c ∈ charset.toList := by
  constructor
  · unfold generateSalt
    rw [length_asString, List.length_map, List.length_range]
    rfl
  · intro c hc
    unfold generateSalt at hc
    rw [toList_asString] at hc
    obtain ⟨i, _, rfl⟩ := List.mem_map.mp hc
    rw [List.getD_eq_getElem _ _ (h i)]
    exact List.getElem_mem _

/-- Witness for C2: the in-range hypothesis and the conclusion hold at the
concrete source that always draws index 0. -/
theorem generateSalt_spec_witness :
    (∀ i : Nat, (fun _ : Nat => 0) i < charset.toList.length) ∧
      ((generateSalt (fun _ => 0)).length = 64 ∧
        ∀ c ∈ (generateSalt (fun _ => 0)).toList, c ∈ charset.toList) := by
  have h : ∀ i : Nat, (fun _ : Nat => 0) i < charset.toList.length := by
    intro i
    show 0 < charset.toList.length
    decide
  exact ⟨h, generateSalt_spec (fun _ => 0) h⟩

/-! ## Claim C4: extractZip's failure behaviour -/

/-- Claim C4 counterexample: when the underlying extraction fails (archive
unreadable or target unwritable), extractZip does not surface a failed
operation — its catch block returns the error object as a normal fulfilled
result value. -/
theorem extractZip_failure_counter :
    extractZip (Except.error ("EACCES")) = Except.ok (ZipResult.errValue ("EACCES")) := rfl

/-- Claim C4 (amended): when the underlying archive extraction fails,
extractZip catches the error, and returns the error object as a normal
result value to the caller; it never surfaces a rejection, whatever the
outcome of the underlying extraction. -/
theorem extractZip_failure_spec :
    (∀ e : String, extractZip (Except.error e) = Except.ok (ZipResult.errValue e)) ∧
      ∀ outcome : Except String (List String), (extractZip outcome).isOk = true := by
  refine ⟨fun e => rfl, fun outcome => ?_⟩
  cases outcome <;> rfl

/-! ## Claim C5: downloadFile's redirect range -/

/-- Claim C5 counterexample: a response with status code 300 — inside the
claim's range [300,400) — and a Location header is not followed; the body is
streamed to the target file instead, because the code tests
`code > 300`. -/
theorem downloadFile_300_counter :
    downloadFile netMultipleChoices noFileExists 1 ("http://a.example/w.zip") ("target.zip") =
      Except.ok (some (("target.zip"), ("BODY300"))) := rfl

/-- Claim C5 (amended): for a fetch whose target file does not exist, a
response status code strictly between 300 and 400 together with a non-empty
Location header makes downloadFile recurse on the Location URL with the same
target file instead of streaming the response body. -/
theorem downloadFile_redirect_spec (net : String → HttpResponse) (fileExists : String → Bool)
    (fuel : Nat) (url targetFile loc : String)
    (hex : fileExists targetFile = false)
    (h1 : 300 < (net url).statusCode) (h2 : (net url).statusCode < 400)
    (hloc : (net url).location = some loc) (hne : ¬ loc = "") :
    downloadFile net fileExists (fuel + 1) url targetFile =
      downloadFile net fileExists fuel loc targetFile := by
  have hcode : ¬ 400 ≤ (net url).statusCode := by omega
  have htr : locationTruthy (net url).location = true := by
    rw [hloc]
    simpa [locationTruthy] using hne
  simp only [downloadFile]
  rw [hex]
  simp only [Bool.false_eq_true, if_false]
  rw [if_neg hcode, if_pos ⟨h1, h2, htr⟩, hloc]
  rfl

/-- Witness for C5: the hypotheses and the conclusion at a concrete one-hop
redirecting network. -/
theorem downloadFile_redirect_witness :
    noFileExists ("target.zip") = false ∧
      300 < (netMovedOnce ("http://a.example/w.zip")).statusCode ∧
      (netMovedOnce ("http://a.example/w.zip")).statusCode < 400 ∧
      (netMovedOnce ("http://a.example/w.zip")).location = some ("http://b.example/w.zip") ∧
      downloadFile netMovedOnce noFileExists 2 ("http://a.example/w.zip") ("target.zip") =
        downloadFile netMovedOnce noFileExists 1 ("http://b.example/w.zip") ("target.zip") := by
  refine ⟨rfl, by decide, by decide, rfl, ?_⟩
  exact downloadFile_redirect_spec netMovedOnce noFileExists 1
    ("http://a.example/w.zip") ("target.zip") ("http://b.example/w.zip")
    rfl (by decide) (by decide) rfl (by decide)

/-! ## Claim C10: downloadFile on status codes at or above 400 -/

/-- Claim C10: for a fetch whose target file does not exist and whose
response status code is at least 400, downloadFile rejects with the server's
status text before reaching the branch that opens the write stream (the only
branch producing an `Except.ok (some _)` write), so no file is created at
the target path; re-invoking it for the same target against the unchanged
filesystem yields the same rejection and never the already-exists skip
result `Except.ok none`. -/
theorem downloadFile_error_spec (net : String → HttpResponse) (fileExists : String → Bool)
    (fuel : Nat) (url targetFile : String)
    (hex : fileExists targetFile = false) (hcode : 400 ≤ (net url).statusCode) :
    downloadFile net fileExists (fuel + 1) url targetFile =
        Except.error (net url).statusMessage ∧
      ∀ fuel' : Nat,
        ¬ downloadFile net fileExists (fuel' + 1) url targetFile = Except.ok none := by
  have main : ∀ f : Nat, downloadFile net fileExists (f + 1) url targetFile =
      Except.error (net url).statusMessage := by
    intro f
    simp only [downloadFile]
    rw [hex]
    simp only [Bool.false_eq_true, if_false]
    rw [if_pos hcode]
  refine ⟨main fuel, fun f hcontra => ?_⟩
  rw [main f] at hcontra
  cases hcontra

/-- Witness for C10: the hypotheses and the conclusion at a concrete
404-answering network. -/
theorem downloadFile_error_witness :
    noFileExists ("target.zip") = false ∧
      400 ≤ (netNotFound ("http://a.example/w.zip")).statusCode ∧
      (downloadFile netNotFound noFileExists 1 ("http://a.example/w.zip") ("target.zip") =
          Except.error (netNotFound ("http://a.example/w.zip")).statusMessage ∧
        ∀ fuel' : Nat,
          ¬ downloadFile netNotFound noFileExists (fuel' + 1) ("http://a.example/w.zip")
              ("target.zip") = Except.ok none) := by
  refine ⟨rfl, by decide, ?_⟩
  exact downloadFile_error_spec netNotFound noFileExists 0
    ("http://a.example/w.zip") ("target.zip") rfl (by decide)

/-! ## Claim C7: items contributed per scanned directory -/

/-- Claim C7 counterexample: a single child directory whose style.css yields
version 1.0 and whose theme PHP file yields version 2.0 contributes two
inventory items, not at most one. -/
theorem scanDirectory_counter :
    scanDirectory [⟨("foo"), true, true, some ("1.0"), true, false, some ("2.0"), none⟩] =
      [(("foo"), ("1.0")), (("foo"), ("2.0"))] := rfl

/-- Claim C7 (amended): each child directory contributes at most two
InventoryItems — at most one from the style.css check and at most one from
the PHP-header check, appended independently — so a scan returns at most
twice as many items as there are children. -/
theorem scanDirectory_at_most_two :
    (∀ item : ScanItem, (scanDirectoryStep item).length ≤ 2) ∧
      ∀ items : List ScanItem, (scanDirectory items).length ≤ 2 * items.length := by
  have bound : ∀ (name : String) (b : Bool) (o : Option String),
      (if b then
        (match o with | some v => [(name, v)] | none => ([] : List (String × String)))
      else []).length ≤ 1 := by
    intro name b o
    cases b <;> cases o <;> simp
  have hstep : ∀ item : ScanItem, (scanDirectoryStep item).length ≤ 2 := by
    intro item
    unfold scanDirectoryStep
    split
    · rw [List.length_append]
      exact le_trans (Nat.add_le_add (bound _ _ _) (bound _ _ _)) (by norm_num)
    · simp
  have hfold : ∀ (items : List ScanItem) (acc : List (String × String)),
      (items.foldl (fun r it => r ++ scanDirectoryStep it) acc).length ≤
        acc.length + 2 * items.length := by
    intro items
    induction items with
    | nil => intro acc; simp
    | cons it rest ih =>
      intro acc
      simp only [List.foldl_cons]
      refine le_trans (ih (acc ++ scanDirectoryStep it)) ?_
      rw [List.length_append]
      simp only [List.length_cons]
      have := hstep it
      omega
  refine ⟨hstep, fun items => ?_⟩
  have := hfold items []
  simpa [scanDirectory] using this

/-! ## Claim C8: getWordPressPaths' base folder -/

/-- Claim C8: the base folder is the root folder itself exactly when the
configuration marker file (wp-package.json) or a pre-existing wp-config.php
exists directly under the root folder, and otherwise the root folder joined
with the install name from config.name (falling back to the default). -/
theorem getWordPressPaths_baseFolder (fsExists : String → Bool) (configName : Option String)
    (rootFolder : String) :
    (getWordPressPaths fsExists configName rootFolder).baseFolder =
      if fsExists (pathJoin rootFolder pkgFileName) ||
          fsExists (pathJoin rootFolder ("wp-config.php")) then rootFolder
      else pathJoin rootFolder (configName.getD defaultWpInstallFolder) := by
  cases h1 : fsExists (pathJoin rootFolder ("wp-config.php")) <;>
    cases h2 : fsExists (pathJoin rootFolder pkgFileName) <;>
      simp [getWordPressPaths, h1, h2]

/-! ## Claim C3: uncommentedLines applied twice -/

theorem isPrefSeq_ex (pat l : List Char) : isPrefSeq pat l = true ↔ ∃ t, pat ++ t = l := by
  induction pat generalizing l with
  | nil => simp [isPrefSeq]
  | cons p ps ih =>
    cases l with
    | nil => simp [isPrefSeq]
    | cons c cs =>
      simp only [isPrefSeq, Bool.and_eq_true, beq_iff_eq, ih, List.cons_append,
        List.cons.injEq]
      constructor
      · rintro ⟨rfl, t, rfl⟩
        exact ⟨t, rfl, rfl⟩
      · rintro ⟨t, rfl, h⟩
        exact ⟨rfl, t, h⟩

theorem pat_ne_nil_of_idx_none (pat l : List Char) (h : idxOfSeq? pat l = none) :
    pat ≠ [] := by
  intro hp
  subst hp
  cases l <;> simp [idxOfSeq?, isPrefSeq] at h

theorem idx_none_nil (pat : List Char) (hne : pat ≠ []) : idxOfSeq? pat [] = none := by
  cases pat with
  | nil => exact absurd rfl hne
  | cons p ps => simp [idxOfSeq?, isPrefSeq]

theorem idx_none_cons (pat : List Char) (c : Char) (l : List Char)
    (h : idxOfSeq? pat (c :: l) = none) : idxOfSeq? pat l = none := by
  by_cases hp : isPrefSeq pat (c :: l)
  · simp [idxOfSeq?, hp] at h
  · simp only [idxOfSeq?, if_neg hp] at h
    cases hidx : idxOfSeq? pat l with
    | none => rfl
    | some i => rw [hidx] at h; simp at h

theorem isPrefSeq_ext (pat l₁ l₂ : List Char) (h : isPrefSeq pat l₁ = true) :
    isPrefSeq pat (l₁ ++ l₂) = true := by
  rw [isPrefSeq_ex] at h ⊢
  obtain ⟨t, rfl⟩ := h
  exact ⟨t ++ l₂, by simp⟩

theorem idx_none_append_left (pat l₁ l₂ : List Char)
    (h : idxOfSeq? pat (l₁ ++ l₂) = none) : idxOfSeq? pat l₁ = none := by
  induction l₁ with
  | nil => exact idx_none_nil pat (pat_ne_nil_of_idx_none pat l₂ (by simpa using h))
  | cons c cs ih =>
    rw [List.cons_append] at h
    have h' := idx_none_cons pat c (cs ++ l₂) h
    have hp : ¬ isPrefSeq pat (c :: cs) = true := by
      intro hpp
      have hext := isPrefSeq_ext pat (c :: cs) l₂ hpp
      rw [List.cons_append] at hext
      simp [idxOfSeq?, hext] at h
    simp only [idxOfSeq?, ih h', Option.map_none']
    rw [if_neg hp]

theorem idx_none_split (sep : Char) (pat l : List Char) (h : idxOfSeq? pat l = none) :
    ∀ x ∈ splitCharList sep l, idxOfSeq? pat x = none := by
  induction l with
  | nil =>
    intro x hx
    simp [splitCharList] at hx
    subst hx
    simpa using h
  | cons c rest ih =>
    intro x hx
    have hrest := idx_none_cons pat c rest h
    by_cases hc : c = sep
    · simp only [splitCharList, if_pos hc, List.mem_cons] at hx
      rcases hx with rfl | hx
      · exact idx_none_nil pat (pat_ne_nil_of_idx_none pat _ h)
      · exact ih hrest x hx
    · obtain ⟨h', t', ht⟩ := List.exists_cons_of_ne_nil (splitCharList_ne_nil sep rest)
      simp only [splitCharList, if_neg hc, ht, List.mem_cons] at hx
      rcases hx with rfl | hx
      · obtain ⟨l₂, hl⟩ := splitCharList_head_app sep rest h' t' ht
        apply idx_none_append_left pat (c :: h') l₂
        rw [List.cons_append, hl]
        exact h
      · exact ih hrest x (by rw [ht]; exact List.mem_cons_of_mem h' hx)

theorem processLine_id (line : List Char)
    (h1 : idxOfSeq? ['/', '*'] line = none) (h2 : idxOfSeq? ['*', '/'] line = none)
    (h3 : idxOfSeq? ['/', '/'] line = none) :
    processLine false line = (false, line) := by
  simp [processLine, h1, h2, h3]

theorem uncommentedGo_id (lines : List (List Char))
    (h : ∀ line ∈ lines, processLine false line = (false, line)) :
    uncommentedGo false lines = lines.foldr (fun a b => a ++ '\n' :: b) [] := by
  induction lines with
  | nil => rfl
  | cons line rest ih =>
    simp only [uncommentedGo, List.foldr_cons]
    rw [h line (List.mem_cons_self _ _)]
    show line ++ '\n' :: uncommentedGo false rest =
      line ++ '\n' :: List.foldr (fun a b => a ++ '\n' :: b) [] rest
    rw [ih fun l hl => h l (List.mem_cons_of_mem _ hl)]

theorem foldr_join_split (sep : Char) (l : List Char) :
    (splitCharList sep l).foldr (fun a b => a ++ sep :: b) [] = l ++ [sep] := by
  induction l with
  | nil => rfl
  | cons c rest ih =>
    by_cases hc : c = sep
    · subst hc
      simp only [splitCharList, if_pos rfl, if_true, List.foldr_cons, List.nil_append]
      rw [ih]
      simp
    · obtain ⟨h', t', ht⟩ := List.exists_cons_of_ne_nil (splitCharList_ne_nil sep rest)
      have ihr : h' ++ sep :: (t'.foldr (fun a b => a ++ sep :: b) []) = rest ++ [sep] := by
        have hres := ih
        rw [ht] at hres
        simpa [List.foldr_cons] using hres
      simp only [splitCharList, if_neg hc, ht, List.foldr_cons, List.cons_append]
      rw [ihr]

instance noMarkersDecidable (s : String) : Decidable (noMarkers s) := by
  unfold noMarkers
  infer_instance

theorem uncommentedLines_marker_free (y : String) (h : noMarkers y) :
    uncommentedLines y = y ++ ("\n") := by
  obtain ⟨h1, h2, h3⟩ := h
  unfold uncommentedLines
  rw [uncommentedGo_id _ fun line hline =>
    processLine_id line (idx_none_split '\n' _ _ h1 line hline)
      (idx_none_split '\n' _ _ h2 line hline) (idx_none_split '\n' _ _ h3 line hline)]
  rw [foldr_join_split '\n' y.toList]
  rfl

/-- Claim C3 counterexample: uncommentedLines is not idempotent — every
application appends a newline after each line including the last, so even on
the empty input applying it twice differs from applying it once. -/
theorem uncommentedLines_not_idempotent :
    uncommentedLines ("") = ("\n") ∧ uncommentedLines (uncommentedLines ("")) = ("\n\n") ∧
      ¬ uncommentedLines (uncommentedLines ("")) = uncommentedLines ("") := by decide

/-- Claim C3 (amended): uncommentedLines is not idempotent — each
application appends a trailing newline to every line including the last.  For
every input whose once-stripped output is free of the three comment markers
the function reacts to, a second application is exactly that: it returns the
first application's output with a single newline appended. -/
theorem uncommentedLines_twice (x : String) (h : noMarkers (uncommentedLines x)) :
    uncommentedLines (uncommentedLines x) = uncommentedLines x ++ ("\n") :=
  uncommentedLines_marker_free _ h

/-- Witness for C3: the marker-free hypothesis and the conclusion at the
concrete input "a". -/
theorem uncommentedLines_twice_witness :
    noMarkers (uncommentedLines ("a")) ∧
      uncommentedLines (uncommentedLines ("a")) = uncommentedLines ("a") ++ ("\n") :=
  ⟨by decide, uncommentedLines_twice ("a") (by decide)⟩

/-! ## Claim C6: replaceDbConstant -/

theorem containsSeq_cons (pat : List Char) (c : Char) (rest : List Char) :
    containsSeq pat (c :: rest) = (isPrefSeq pat (c :: rest) || containsSeq pat rest) := by
  by_cases hp : isPrefSeq pat (c :: rest)
  · simp [containsSeq, idxOfSeq?, hp]
  · cases hidx : idxOfSeq? pat rest <;> simp [containsSeq, idxOfSeq?, hp, hidx]

theorem containsSeq_iff (pat l : List Char) :
    containsSeq pat l = true ↔ ∃ pre post, l = pre ++ pat ++ post := by
  induction l with
  | nil =>
    cases pat with
    | nil =>
      simp only [containsSeq, idxOfSeq?, isPrefSeq, if_true, Option.isSome_some,
        true_iff]
      exact ⟨[], [], rfl⟩
    | cons p ps =>
      simp [containsSeq, idxOfSeq?, isPrefSeq]
  | cons c rest ih =>
    rw [containsSeq_cons]
    simp only [Bool.or_eq_true, ih, isPrefSeq_ex]
    constructor
    · rintro (⟨t, ht⟩ | ⟨pre, post, rfl⟩)
      · exact ⟨[], t, by simpa using ht.symm⟩
      · exact ⟨c :: pre, post, by simp⟩
    · rintro ⟨pre, post, hl⟩
      cases pre with
      | nil =>
        left
        exact ⟨post, by simpa using hl.symm⟩
      | cons x pre' =>
        right
        simp only [List.cons_append, List.cons.injEq] at hl
        exact ⟨pre', post, hl.2⟩

theorem matchDefineAfter_lit (t : List Char) :
    matchDefineAfter (("DB_NAME").toList) ((("define( 'DB_NAME', 'old' );").toList) ++ t) =
      some t := rfl

theorem rdcGo_contains (name value lit : List Char)
    (hmatch : ∀ t, matchDefineAfter name (lit ++ t) = some t) (hlit : lit ≠ []) :
    ∀ l : List Char, (∃ pre post, l = pre ++ lit ++ post) →
      containsSeq (canonicalDefine name value) (rdcGo name value l) = true := by
  intro l
  induction l with
  | nil =>
    rintro ⟨pre, post, h⟩
    rw [List.append_assoc] at h
    rcases List.append_eq_nil.mp h.symm with ⟨-, h2⟩
    rcases List.append_eq_nil.mp h2 with ⟨h3, -⟩
    exact absurd h3 hlit
  | cons c rest ih =>
    rintro ⟨pre, post, hl⟩
    cases hm : matchDefineAfter name (c :: rest) with
    | some r =>
      simp only [rdcGo, hm]
      rw [containsSeq_iff]
      exact ⟨[], r, by simp⟩
    | none =>
      cases pre with
      | nil =>
        exfalso
        simp only [List.nil_append] at hl
        rw [hl, hmatch post] at hm
        cases hm
      | cons x pre' =>
        simp only [List.cons_append, List.cons.injEq] at hl
        simp only [rdcGo, hm]
        rw [containsSeq_cons]
        simp only [Bool.or_eq_true]
        exact Or.inr (ih ⟨pre', post, hl.2⟩)

/-- Claim C6 counterexample: `replace` with a non-global regex rewrites only
the first match, so an input holding the DB_NAME statement and a second
occurrence of 'old' (here in a DB_USER statement) still contains 'old' after
the replacement. -/
theorem replaceDbConstant_counter :
    replaceDbConstant (("define( 'DB_NAME', 'old' );define( 'DB_USER', 'old' );"))
        ("DB_NAME") ("new") =
      ("define( 'DB_NAME', 'new' );define( 'DB_USER', 'old' );") ∧
      containsSeq (("'old'").toList)
        (replaceDbConstant (("define( 'DB_NAME', 'old' );define( 'DB_USER', 'old' );"))
          ("DB_NAME") ("new")).toList = true := by
  constructor
  · rfl
  · decide

/-- Claim C6 (amended): for every input text containing
`define( 'DB_NAME', 'old' );`, replaceDbConstant(input, DB_NAME, new) yields
text containing `define( 'DB_NAME', 'new' );` in canonical spacing (the
first match of the DB_NAME define pattern is replaced); occurrences of
'old' outside the one replaced statement are left in place. -/
theorem replaceDbConstant_spec (input : String)
    (h : containsSeq (("define( 'DB_NAME', 'old' );").toList) input.toList = true) :
    containsSeq (("define( 'DB_NAME', 'new' );").toList)
      (replaceDbConstant input ("DB_NAME") ("new")).toList = true := by
  have hcanon : canonicalDefine (("DB_NAME").toList) (("new").toList) =
      ("define( 'DB_NAME', 'new' );").toList := rfl
  unfold replaceDbConstant
  rw [toList_asString, ← hcanon]
  exact rdcGo_contains (("DB_NAME").toList) (("new").toList)
    (("define( 'DB_NAME', 'old' );").toList) matchDefineAfter_lit (by decide)
    input.toList ((containsSeq_iff _ _).mp h)

/-- Witness for C6: the containment hypothesis and the conclusion at a
concrete configuration text. -/
theorem replaceDbConstant_spec_witness :
    containsSeq (("define( 'DB_NAME', 'old' );").toList)
        (("$x = 1; define( 'DB_NAME', 'old' ); $y = 2;").toList) = true ∧
      containsSeq (("define( 'DB_NAME', 'new' );").toList)
        (replaceDbConstant ("$x = 1; define( 'DB_NAME', 'old' ); $y = 2;")
          ("DB_NAME") ("new")).toList = true :=
  ⟨by decide, replaceDbConstant_spec ("$x = 1; define( 'DB_NAME', 'old' ); $y = 2;") (by decide)⟩

/-! ## Claim C9: parseWpConfig's last occurrence wins -/

theorem foldl_overwriteInsert (ms : List (List Char × List Char)) :
    ∀ (m : List Char → Option (List Char)) (k : List Char),
      (ms.foldl overwriteInsert m) k = (lastValue k ms).elim (m k) some := by
  induction ms with
  | nil => intro m k; rfl
  | cons kv ms ih =>
    intro m k
    simp only [List.foldl_cons]
    rw [ih (overwriteInsert m kv) k]
    cases hl : lastValue k ms with
    | some v => simp [lastValue, hl]
    | none =>
      by_cases hk : k = kv.1
      · subst hk
        simp [lastValue, hl, overwriteInsert]
      · simp [lastValue, hl, overwriteInsert, hk]

theorem buildMapFun_lastValue (ms : List (List Char × List Char)) (k : List Char) :
    buildMapFun ms k = lastValue k ms := by
  unfold buildMapFun
  rw [foldl_overwriteInsert ms _ k]
  cases lastValue k ms <;> rfl

/-- Claim C9: in parseWpConfig's result the binding of every constant name
and every variable name is the value of the last (textually latest) match
the corresponding global regex scan produced over the comment-stripped text —
each `forEach` insert overwrites earlier bindings, so a repeated name ends up
with its latest value. -/
theorem parseWpConfig_last_wins (fileContent : String) (k : List Char) :
    (parseWpConfig fileContent).constants k =
        lastValue k (scanDefines (uncommentedLines fileContent).toList) ∧
      (parseWpConfig fileContent).vars k =
        lastValue k (scanVars (uncommentedLines fileContent).toList) := by
  refine ⟨?_, ?_⟩ <;> simp only [parseWpConfig] <;> exact buildMapFun_lastValue _ _

end Wpmm
